import Mathlib

/-!
# Verification of the sentence-exercise engine

A shallow embedding, in Lean 4, of the algorithmic core of the repository:
the question-bank parser and selector (`questionService.ts`), the answer
normalizer and session scoring (`Timer.tsx`), and the sentence assembler
(`SentenceBuilder`).  Text is modelled as `List Char`; the JavaScript string
operations used by the code (regex replace of punctuation and whitespace,
`trim`, `toLowerCase`, `split`) are translated character by character.
-/

/-- Strings are modelled as lists of characters. -/
abbrev Str := List Char

/-- The whitespace characters recognised by the JavaScript `\s` class that are
relevant here (space, tab, line feed, carriage return, vertical tab, form
feed). -/
def isJsWs (c : Char) : Bool :=
  c == ' ' || c == '\t' || c == '\n' || c == '\r' ||
  c == Char.ofNat 11 || c == Char.ofNat 12

/-- The four punctuation characters removed by the scorer's
`s.replace(/[.?!,]/g, '')`. -/
def isPunct (c : Char) : Bool :=
  c == '.' || c == '?' || c == '!' || c == ','

/-- `s.replace(/[.?!,]/g, '')`: delete every punctuation character. -/
def stripPunct (l : Str) : Str := l.filter (fun c => !isPunct c)

/-- ASCII lower-casing of one character, as performed by `toLowerCase` on the
ASCII range. -/
def lowerChar (c : Char) : Char :=
  if 65 ≤ c.toNat ∧ c.toNat ≤ 90 then Char.ofNat (c.toNat + 32) else c

/-- `s.toLowerCase()` on the ASCII range. -/
def lowerStr (l : Str) : Str := l.map lowerChar

/-- Worker for `collapseWs`: the flag records whether the previous input
character belonged to a (already replaced) whitespace run. -/
def collapseWsAux : Bool → Str → Str
  | _, [] => []
  | prevWs, c :: rest =>
    if isJsWs c then
      if prevWs then collapseWsAux true rest
      else ' ' :: collapseWsAux true rest
    else c :: collapseWsAux false rest

/-- `s.replace(/\s+/g, ' ')`: replace every maximal whitespace run by one
space. -/
def collapseWs (l : Str) : Str := collapseWsAux false l

/-- `s.trim()`: remove leading and trailing whitespace. -/
def trimWs (l : Str) : Str :=
  ((l.dropWhile isJsWs).reverse.dropWhile isJsWs).reverse

/-- The scorer's normalization
`s.replace(/[.?!,]/g, '').toLowerCase().replace(/\s+/g, ' ').trim()`
(`clean` in `handleQuestionComplete`). -/
def clean (l : Str) : Str := trimWs (collapseWs (lowerStr (stripPunct l)))

example : clean "  She IS going,  to the store.! ".toList =
    "she is going to the store".toList := by decide

example : clean "She is going to the store.".toList =
    clean "she is going to the store".toList := by decide

/-!
## Question repository (`questionService.ts`)
-/

/-- A question record, as produced by the parser (`Question` in `types.ts`).
Difficulty is a string at runtime (a TypeScript union of three literals). -/
structure Question where
  id : Str
  context : Str
  template : Str
  scrambledWords : List Str
  correctSentence : Str
  distractor : Str
  difficulty : Str
deriving DecidableEq

/-- A decoder for the scrambled-words field, abstracting `JSON.parse` on a
string expected to hold a JSON array of strings.  `none` models a parse
failure (the code catches it and falls back to `[]`). -/
abbrev Decoder := Str → Option (List Str)

/-- `text.split(/\r?\n/)`: split on line feeds, dropping one carriage return
at the end of each piece. -/
def splitLinesRaw (t : Str) : List Str :=
  (t.splitOn '\n').map fun l =>
    if l.getLast? = some '\r' then l.dropLast else l

/-- The line list the parse loop iterates over:
`text.split(/\r?\n/).filter(line => line.trim() !== "")`. -/
def nonblankLines (t : Str) : List Str :=
  (splitLinesRaw t).filter fun l => !(trimWs l == [])

/-- The record built from a well-formed line (7 or more `|`-separated
fields): lines 27-49 of `fetchQuestions`. -/
def mkRecord (dec : Decoder) (line : Str) : Question :=
  let values := line.splitOn '|'
  { id := values.getD 0 []
    context := values.getD 1 []
    template := values.getD 2 []
    scrambledWords := (dec (values.getD 3 [])).getD []
    correctSentence := values.getD 4 []
    distractor := trimWs (values.getD 5 [])
    difficulty := trimWs (values.getD 6 []) }

/-- One iteration of the parse loop: a line with fewer than 7 fields is
skipped (`continue`), any other line yields a record. -/
def parseLine (dec : Decoder) (line : Str) : Option Question :=
  if (line.splitOn '|').length < 7 then none
  else some (mkRecord dec line)

/-- The parse phase of `fetchQuestions`: iterate over the non-blank lines
from index 1 (the header is skipped), collecting the records of the
well-formed lines. -/
def parseQuestions (dec : Decoder) (t : Str) : List Question :=
  ((nonblankLines t).drop 1).filterMap (parseLine dec)

/-- The outcome of the single `fetch("/questions.csv")` call: either a
transport error (the promise rejects) or a response with a success flag and
a body. -/
inductive FetchResult where
  | transportError : FetchResult
  | response (ok : Bool) (body : Str) : FetchResult
deriving DecidableEq

/-- The body of the `try` block of `fetchQuestions`: throws (here:
`Except.error`) when the fetch rejects or the response status is not ok,
otherwise parses the body. -/
def fetchBody (dec : Decoder) : FetchResult → Except Str (List Question)
  | .transportError => .error "transport error".toList
  | .response ok body =>
    if ok then .ok (parseQuestions dec body)
    else .error "Failed to fetch questions CSV".toList

/-- `fetchQuestions` as seen by its caller: the surrounding
`try ... catch ... return []` turns every error into an empty list, so the
function always returns normally. -/
def fetchQuestions (dec : Decoder) (r : FetchResult) : List Question :=
  match fetchBody dec r with
  | .ok qs => qs
  | .error _ => []

/-!
## Session selector (`getRandomQuestions`)
-/

/-- Swap the elements at positions `i` and `j` of a list
(`[a[i], a[j]] = [a[j], a[i]]`); out-of-range positions leave the list
unchanged. -/
def listSwap (l : List α) (i j : Nat) : List α :=
  match l.get? i, l.get? j with
  | some x, some y => (l.set i y).set j x
  | _, _ => l

/-- The Fisher-Yates loop of `getRandomQuestions`, iterating the loop index
from `i` down to `1`.  The random draw `Math.floor(Math.random() * (i + 1))`
is modelled by reducing the `i`-th element of an arbitrary stream of naturals
modulo `i + 1`, which ranges over exactly the interval `[0, i]`. -/
def fyAux (draws : Nat → Nat) (l : List α) : Nat → List α
  | 0 => l
  | k + 1 => fyAux draws (listSwap l (k + 1) (draws (k + 1) % (k + 2))) k

/-- `const shuffled = [...list]` followed by the Fisher-Yates loop
`for (let i = length - 1; i > 0; i--)`. -/
def fisherYates (draws : Nat → Nat) (l : List α) : List α :=
  fyAux draws l (l.length - 1)

/-- `getRandomQuestions`, with the already fetched pool and the stream of
random draws passed as parameters: error when the pool is empty, error when
no record matches the requested difficulty, otherwise the first `count`
elements of a Fisher-Yates shuffled copy of the filtered pool. -/
def getRandomQuestions (pool : List Question) (count : Nat) (difficulty : Str)
    (draws : Nat → Nat) : Except Str (List Question) :=
  if pool.length = 0 then
    .error "No questions available.".toList
  else
    let filtered := pool.filter fun q => q.difficulty == difficulty
    if filtered.length = 0 then
      .error ("No questions available for difficulty".toList ++ difficulty)
    else
      .ok ((fisherYates draws filtered).take count)

example :
    fisherYates (fun _ => 0) ["a".toList, "b".toList, "c".toList] =
      ["b".toList, "c".toList, "a".toList] := by decide

/-!
## Sentence assembler (`SentenceBuilder`)
-/

/-- Worker for `splitTemplate`: `lit` holds the current literal segment in
reverse, `run` the number of underscores read since the last non-underscore
character.  A maximal run of at least 3 underscores ends the current literal
piece and is replaced by a blank marker (`none`), exactly as
`template.split(/(_{3,})/g)` followed by mapping matched tokens to `null`;
shorter underscore runs stay inside the literal text. -/
def splitTplAux (lit : Str) (run : Nat) : Str → List (Option Str)
  | [] =>
    if 3 ≤ run then [some lit.reverse, none, some []]
    else [some (List.replicate run '_' ++ lit).reverse]
  | c :: rest =>
    if c = '_' then splitTplAux lit (run + 1) rest
    else
      if 3 ≤ run then
        some lit.reverse :: none :: splitTplAux [c] 0 rest
      else
        splitTplAux (c :: (List.replicate run '_' ++ lit)) 0 rest

/-- The template tokenization of the assembler's init effect:
`question.template.split(/(_{3,})/g)` with each blank-marker run mapped to
`null` (here `none`) and literal pieces kept. -/
def splitTemplate (t : Str) : List (Option Str) := splitTplAux [] 0 t

/-- The state of one `SentenceBuilder` instance: `parts` is the tokenized
template (`none` = blank), `placed` models the `placedWords` record (entry
`i` is `some w` when key `i` is present with value `w`), `available` is the
word pool. -/
structure BuilderState where
  parts : List (Option Str)
  placed : List (Option Str)
  available : List Str
deriving DecidableEq

/-- The init effect of `SentenceBuilder` for a question, with the already
shuffled pool passed in: `placedWords` is reset to `{}` and the template is
tokenized. -/
def initBuilder (q : Question) (pool : List Str) : BuilderState :=
  let parts := splitTemplate q.template
  { parts := parts
    placed := List.replicate parts.length none
    available := pool }

/-- The contents of the pool built by the init effect before shuffling:
`[...question.scrambledWords, question.distractor]`. -/
def assemblerPoolContents (q : Question) : List Str :=
  q.scrambledWords ++ [q.distractor]

/-- The JavaScript truthiness test `!placedWords[i]`: true when the key is
absent or its value is the empty string. -/
def jsFalsyEmpty : Option Str → Bool
  | none => true
  | some w => w == []

/-- The search loop of `handleWordClick`: the first index `i` with
`parts[i] === null && !placedWords[i]`, if any. -/
def firstEmptyBlankIndex (s : BuilderState) : Option Nat :=
  (List.range s.parts.length).find? fun i =>
    s.parts.getD i (some []) == none && jsFalsyEmpty (s.placed.getD i none)

/-- `handleWordClick(word)` (the assembler's `placeWord`): if an "empty"
blank exists, assign the word there and remove the word's first occurrence
from the pool (`indexOf` + `splice`, a no-op when absent); otherwise do
nothing. -/
def handleWordClick (s : BuilderState) (word : Str) : BuilderState :=
  match firstEmptyBlankIndex s with
  | none => s
  | some i =>
    { s with
      placed := s.placed.set i (some word)
      available := s.available.erase word }

/-- `handleBlankClick(blankIndex)` (the assembler's `clearSlot`): if the slot
holds a truthy word, delete the key and append the word to the pool; a slot
holding the empty string is falsy and is left alone. -/
def handleBlankClick (s : BuilderState) (blankIndex : Nat) : BuilderState :=
  match s.placed.getD blankIndex none with
  | none => s
  | some w =>
    if w = [] then s
    else
      { s with
        placed := s.placed.set blankIndex none
        available := s.available ++ [w] }

/-- `isComplete`:
`parts.filter(p => p === null).length === Object.keys(placedWords).length`. -/
def isComplete (s : BuilderState) : Bool :=
  (s.parts.filter (fun p => p == none)).length ==
    (s.placed.filter (fun o => o.isSome)).length

/-- The sentence assembled by `handleSubmit` before whitespace cleanup:
`parts.map((part, idx) => part === null ? (placedWords[idx] || "") : part)`
joined with the empty separator. -/
def joinedSentence (s : BuilderState) : Str :=
  ((List.range s.parts.length).map fun i =>
    match s.parts.getD i (some []) with
    | some txt => txt
    | none => (s.placed.getD i none).getD []).flatten

/-- `buildAnswer` = the final sentence of `handleSubmit`:
`join("").replace(/\s+/g, ' ').trim()`. -/
def buildAnswer (s : BuilderState) : Str :=
  trimWs (collapseWs (joinedSentence s))

/-- The multiset of words currently assigned to blank slots (the values of
`placedWords`). -/
def placedWordsList (s : BuilderState) : List Str :=
  s.placed.filterMap id

example :
    splitTemplate "_____ _____ _____ _____.".toList =
      [some [], none, some " ".toList, none, some " ".toList, none,
        some " ".toList, none, some ".".toList] := by decide

/-!
## Session state machine (`ToeflApp`)
-/

/-- The `AppState` enumeration. -/
inductive AppState where
  | LOBBY | LOADING | QUIZ | RESULT
deriving DecidableEq

/-- One entry of the session's answer log (`SessionResult['answers']`). -/
structure AnswerRecord where
  questionId : Str
  isCorrect : Bool
  userAnswer : Str
  correctAnswer : Str
deriving DecidableEq

/-- The state owned by `ToeflApp`: app state, selected questions, current
index, and the running answer log (`results`). -/
structure AppSession where
  appState : AppState
  questions : List Question
  currentIndex : Nat
  results : List AnswerRecord
deriving DecidableEq

/-- The configured session length `TOTAL_QUESTIONS = 9`. -/
def TOTAL_QUESTIONS : Nat := 9

/-- The state set up when `startQuiz` succeeds: quiz begins at index 0 with
a cleared answer log. -/
def startQuizState (qs : List Question) : AppSession :=
  { appState := .QUIZ, questions := qs, currentIndex := 0, results := [] }

/-- `handleQuestionComplete(userAnswer)`: score the current question with the
normalizer, append one `AnswerRecord`, then either advance the index or move
to `RESULT` when no questions remain.  (In the application the current index
is always in range; the out-of-range branch is unreachable.) -/
def handleQuestionComplete (s : AppSession) (userAnswer : Str) : AppSession :=
  match s.questions.get? s.currentIndex with
  | none => s
  | some q =>
    let isC := clean userAnswer == clean q.correctSentence
    let res := s.results ++
      [{ questionId := q.id, isCorrect := isC, userAnswer := userAnswer,
         correctAnswer := q.correctSentence }]
    if s.currentIndex < s.questions.length - 1 then
      { s with results := res, currentIndex := s.currentIndex + 1 }
    else
      { s with results := res, appState := .RESULT }

/-- `handleTimeUp`: the forced transition to `RESULT`; the answer log is
left untouched. -/
def handleTimeUp (s : AppSession) : AppSession :=
  { s with appState := .RESULT }

/-- JavaScript's `Math.round` on a non-negative rational:
`⌊x + 1/2⌋`. -/
def jsRound (q : ℚ) : ℤ := ⌊q + 1 / 2⌋

/-- The score shown at `RESULT`:
`results.filter(r => r.isCorrect).length`. -/
def sessionScore (s : AppSession) : Nat :=
  (s.results.filter (fun r => r.isCorrect)).length

/-- The percentage shown at `RESULT`:
`Math.round((score / TOTAL_QUESTIONS) * 100)`. -/
def sessionPercentage (s : AppSession) : ℤ :=
  jsRound ((sessionScore s : ℚ) / (TOTAL_QUESTIONS : ℚ) * 100)

example : jsRound ((2 : ℚ) / 9 * 100) = 22 := by
  rw [jsRound, Int.floor_eq_iff]
  norm_num

/-!
## General lemmas
-/

/-- A concrete decoder for instances: every scrambled-words field fails to
decode (the code then falls back to the empty list). -/
def decNone : Decoder := fun _ => none

/-- A line is well formed when splitting on `|` yields at least 7 fields. -/
def wellFormedLine (line : Str) : Bool :=
  decide (7 ≤ (line.splitOn '|').length)

theorem parseLine_eq_guard (dec : Decoder) (line : Str) :
    parseLine dec line =
      if wellFormedLine line then some (mkRecord dec line) else none := by
  simp only [parseLine, wellFormedLine]
  by_cases h : (line.splitOn '|').length < 7
  · simp [h, Nat.not_le.mpr h]
  · simp [h, Nat.not_lt.mp h]

theorem filterMap_guard (p : α → Bool) (f : α → β) (l : List α) :
    (l.filterMap fun a => if p a then some (f a) else none) =
      (l.filter p).map f := by
  induction l with
  | nil => rfl
  | cons a t ih =>
    by_cases h : p a <;>
      simp [List.filterMap_cons, List.filter_cons, h, ih]

/-!
## Claim theorems
-/

/-- C1, counterexample: for the concrete input of a failing fetch (transport
error), the `try` body of `fetchQuestions` does throw, but the surrounding
`catch` swallows the error and the load returns the empty list normally —
indistinguishable from a successful fetch of an empty file.  No `LoadError`
is surfaced to the caller, refuting the claim that a fetch failure surfaces
as a load failure. -/
theorem C1_counterexample :
    fetchBody decNone .transportError = .error "transport error".toList ∧
    fetchQuestions decNone .transportError = [] ∧
    fetchQuestions decNone (.response false "body".toList) = [] ∧
    fetchQuestions decNone .transportError =
      fetchQuestions decNone (.response true []) := by
  refine ⟨rfl, rfl, rfl, ?_⟩
  rfl

/-- C1, amended: the load never fails.  When the underlying fetch fails
(transport error or non-success status) the thrown error is caught and the
load returns the empty sequence; on a successful fetch the load returns the
parsed records, so malformed individual lines never make the load as a whole
fail either. -/
theorem C1_load_never_fails (dec : Decoder) (body : Str) :
    fetchQuestions dec .transportError = [] ∧
    fetchQuestions dec (.response false body) = [] ∧
    fetchQuestions dec (.response true body) = parseQuestions dec body := by
  refine ⟨rfl, rfl, ?_⟩
  simp [fetchQuestions, fetchBody]

/-- C9: a record line with fewer than 7 `|`-separated fields is excluded
from the result of the load, which still returns exactly the records of the
remaining well-formed lines; a successful fetch therefore never raises a
load-level error, whatever the body.  The last conjunct is the concrete
instance: a file whose second record line has only 5 fields yields exactly
the record of the well-formed line. -/
theorem C9_malformed_line_skipped (dec : Decoder) (t : Str) :
    parseQuestions dec t =
      (((nonblankLines t).drop 1).filter wellFormedLine).map (mkRecord dec) ∧
    fetchQuestions dec (.response true t) = parseQuestions dec t ∧
    parseQuestions decNone
        ("id|ctx|tpl|[]|sent|d|Easy\nq1|c1|t1|[]|s1|d1|Hard\nq2|c2|t2|[]|s2".toList) =
      [mkRecord decNone "q1|c1|t1|[]|s1|d1|Hard".toList] := by
  refine ⟨?_, by simp [fetchQuestions, fetchBody], by decide⟩
  unfold parseQuestions
  rw [show parseLine dec = fun line =>
        if wellFormedLine line then some (mkRecord dec line) else none from
      funext (parseLine_eq_guard dec)]
  exact filterMap_guard _ _ _

/-- Moving the element stored at position `m` to the front while overwriting
its old position is a permutation. -/
theorem perm_cons_set {α : Type _} {t : List α} {m : Nat} {y a : α}
    (h : t.get? m = some y) : (y :: t.set m a).Perm (a :: t) := by
  induction t generalizing m with
  | nil => simp at h
  | cons b t' ih =>
    cases m with
    | zero =>
      simp only [List.get?_cons_zero, Option.some.injEq] at h
      subst h
      simpa [List.set] using List.Perm.swap a b t'
    | succ m =>
      simp only [List.get?_cons_succ] at h
      have hperm := ih h
      have h1 : (y :: (b :: t').set (m + 1) a) = y :: b :: t'.set m a := by
        simp [List.set]
      rw [h1]
      exact ((List.Perm.swap b y _).trans (hperm.cons b)).trans
        (List.Perm.swap a b t')

/-- Swapping two positions of a list is a permutation. -/
theorem listSwap_perm (l : List α) (i j : Nat) : (listSwap l i j).Perm l := by
  unfold listSwap
  cases hi : l.get? i with
  | none => exact List.Perm.refl l
  | some x =>
    cases hj : l.get? j with
    | none => exact List.Perm.refl l
    | some y =>
      induction l generalizing i j with
      | nil => simp at hi
      | cons a t ih =>
        cases i with
        | zero =>
          simp only [List.get?_cons_zero, Option.some.injEq] at hi
          subst hi
          cases j with
          | zero =>
            simp only [List.get?_cons_zero, Option.some.injEq] at hj
            subst hj
            simp [List.set]
          | succ m =>
            simp only [List.get?_cons_succ] at hj
            simpa [List.set] using perm_cons_set hj
        | succ n =>
          simp only [List.get?_cons_succ] at hi
          cases j with
          | zero =>
            simp only [List.get?_cons_zero, Option.some.injEq] at hj
            subst hj
            show List.Perm (((a :: t).set (n + 1) a).set 0 x) (a :: t)
            simp only [List.set]
            exact perm_cons_set hi
          | succ m =>
            simp only [List.get?_cons_succ] at hj
            show List.Perm (a :: (t.set n y).set m x) (a :: t)
            exact (ih n m hi hj).cons a

/-- The Fisher-Yates loop permutes its input, whatever the draws. -/
theorem fyAux_perm (draws : Nat → Nat) (l : List α) (n : Nat) :
    (fyAux draws l n).Perm l := by
  induction n generalizing l with
  | zero => exact List.Perm.refl l
  | succ k ih => exact (ih _).trans (listSwap_perm _ _ _)

/-- `fisherYates` returns a permutation of its input. -/
theorem fisherYates_perm (draws : Nat → Nat) (l : List α) :
    (fisherYates draws l).Perm l :=
  fyAux_perm draws l (l.length - 1)

/-- C3: on a pool of pairwise-distinct records, the selector fails if and
only if no record of the pool has the requested difficulty; otherwise it
returns exactly `min count filtered.length` pairwise-distinct records, each
of the requested difficulty, where `filtered` is the sub-pool of that
difficulty. -/
theorem C3_select_correct (pool : List Question) (count : Nat)
    (difficulty : Str) (draws : Nat → Nat) (hnd : pool.Nodup) :
    ((∃ e, getRandomQuestions pool count difficulty draws = .error e) ↔
      ∀ q ∈ pool, q.difficulty ≠ difficulty) ∧
    ∀ res, getRandomQuestions pool count difficulty draws = .ok res →
      res.length =
          min count (pool.filter fun q => q.difficulty == difficulty).length ∧
        res.Nodup ∧ ∀ q ∈ res, q.difficulty = difficulty := by
  unfold getRandomQuestions
  by_cases hp : pool.length = 0
  · have hpool : pool = [] := List.length_eq_zero.mp hp
    subst hpool
    simp
  · simp only [hp, if_false]
    by_cases hf : (pool.filter fun q => q.difficulty == difficulty).length = 0
    · have hfil : (pool.filter fun q => q.difficulty == difficulty) = [] :=
        List.length_eq_zero.mp hf
      simp only [hf, if_true, reduceIte]
      constructor
      · constructor
        · intro _ q hq hd
          have : q ∈ (pool.filter fun q => q.difficulty == difficulty) :=
            List.mem_filter.mpr ⟨hq, by simp [hd]⟩
          simp [hfil] at this
        · intro _
          exact ⟨_, rfl⟩
      · intro res hres
        simp at hres
    · simp only [hf, if_false]
      have hperm := fisherYates_perm draws
        (pool.filter fun q => q.difficulty == difficulty)
      constructor
      · constructor
        · intro ⟨e, he⟩
          simp at he
        · intro hall
          exfalso
          apply hf
          rw [List.length_eq_zero, List.filter_eq_nil_iff]
          intro q hq
          simp [hall q hq]
      · intro res hres
        have hres' :
            res = (fisherYates draws
              (pool.filter fun q => q.difficulty == difficulty)).take count := by
          simpa using hres.symm
        subst hres'
        refine ⟨?_, ?_, ?_⟩
        · rw [List.length_take, hperm.length_eq]
        · have hfy : (fisherYates draws
              (pool.filter fun q => q.difficulty == difficulty)).Nodup :=
            hperm.nodup_iff.mpr (hnd.filter _)
          exact hfy.sublist (List.take_sublist _ _)
        · intro q hq
          have hq' := hperm.subset (List.take_subset _ _ hq)
          exact (by simpa using (List.mem_filter.mp hq').2 : _)

/-- A concrete easy question used by witnesses. -/
def qEasy : Question :=
  { id := "q1".toList, context := "ctx1".toList, template := "___ x".toList,
    scrambledWords := ["a".toList], correctSentence := "a x".toList,
    distractor := "d".toList, difficulty := "Middle School".toList }

/-- A concrete hard question used by witnesses. -/
def qHard : Question :=
  { id := "q2".toList, context := "ctx2".toList, template := "___ y".toList,
    scrambledWords := ["b".toList], correctSentence := "b y".toList,
    distractor := "e".toList, difficulty := "University".toList }

/-- Witness for C3 at a concrete pool of two distinct records, count 1,
difficulty `"University"` and an all-zero draw stream. -/
theorem C3_select_correct_witness :
    ((∃ e, getRandomQuestions [qEasy, qHard] 1 "University".toList
        (fun _ => 0) = .error e) ↔
      ∀ q ∈ [qEasy, qHard], q.difficulty ≠ "University".toList) ∧
    ∀ res, getRandomQuestions [qEasy, qHard] 1 "University".toList
        (fun _ => 0) = .ok res →
      res.length = min 1 ([qEasy, qHard].filter fun q =>
          q.difficulty == "University".toList).length ∧
        res.Nodup ∧ ∀ q ∈ res, q.difficulty = "University".toList :=
  C3_select_correct [qEasy, qHard] 1 "University".toList (fun _ => 0)
    (by decide)

/-- A simple demo question (answer `"Yes."`) used for the C4 scenario. -/
def demoQ (iden : Str) : Question :=
  { id := iden, context := "ctx".toList, template := "___".toList,
    scrambledWords := ["yes".toList], correctSentence := "Yes.".toList,
    distractor := "no".toList, difficulty := "Middle School".toList }

/-- Nine configured questions, matching `TOTAL_QUESTIONS = 9`. -/
def demoNine : List Question :=
  [demoQ "1".toList, demoQ "2".toList, demoQ "3".toList, demoQ "4".toList,
   demoQ "5".toList, demoQ "6".toList, demoQ "7".toList, demoQ "8".toList,
   demoQ "9".toList]

/-- The C4 scenario: of 9 questions, three are answered (correct, correct,
wrong) and then the timer expires. -/
def demoCutoff : AppSession :=
  handleTimeUp
    (handleQuestionComplete
      (handleQuestionComplete
        (handleQuestionComplete (startQuizState demoNine) "yes".toList)
        "Yes!".toList)
      "no".toList)

/-- C4: the score shown at `Result` is the number of answer-log entries with
`isCorrect = true` and the percentage is `round(score / 9 * 100)`; answering
appends exactly one record (when the current index is in range) while the
timer expiry appends none and forces `RESULT`.  For the concrete 9-question
session cut off after 3 answers with 2 correct, the result reports
`score = 2`, `percentage = 22` and an answer log of exactly 3 entries. -/
theorem C4_scoring :
    (∀ s : AppSession,
      sessionScore s = (s.results.filter fun r => r.isCorrect).length ∧
      sessionPercentage s =
        jsRound ((sessionScore s : ℚ) / (TOTAL_QUESTIONS : ℚ) * 100)) ∧
    (∀ s : AppSession, (handleTimeUp s).results = s.results ∧
      (handleTimeUp s).appState = .RESULT) ∧
    (∀ (s : AppSession) (ua : Str),
      (handleQuestionComplete s ua).results.length =
        s.results.length +
          if s.currentIndex < s.questions.length then 1 else 0) ∧
    (demoCutoff.appState = .RESULT ∧ sessionScore demoCutoff = 2 ∧
      demoCutoff.results.length = 3 ∧ sessionPercentage demoCutoff = 22) := by
  refine ⟨fun s => ⟨rfl, rfl⟩, fun s => ⟨rfl, rfl⟩, ?_, ?_, ?_, ?_, ?_⟩
  · intro s ua
    cases hq : s.questions[s.currentIndex]? with
    | none =>
      have hlen : s.questions.length ≤ s.currentIndex := by
        simpa using hq
      simp [handleQuestionComplete, hq, Nat.not_lt.mpr hlen]
    | some q =>
      have hlt : s.currentIndex < s.questions.length := by
        by_contra hcon
        rw [List.getElem?_eq_none (Nat.not_lt.mp hcon)] at hq
        exact Option.noConfusion hq
      by_cases h2 : s.currentIndex < s.questions.length - 1 <;>
        simp [handleQuestionComplete, hq, h2, hlt]
  · decide
  · decide
  · decide
  · have hs : sessionScore demoCutoff = 2 := by decide
    rw [sessionPercentage, hs, jsRound, Int.floor_eq_iff]
    norm_num [TOTAL_QUESTIONS]

/-!
## Idempotence of the normalizer
-/

theorem char_toNat_ofNat_lt {n : Nat} (h : n < 55296) :
    (Char.ofNat n).toNat = n := by
  unfold Char.ofNat
  rw [dif_pos (Or.inl h)]
  simp [Char.ofNatAux, Char.toNat, UInt32.toNat, BitVec.toNat_ofNatLt]

theorem lowerChar_eq_self_of_neg {c : Char}
    (h : ¬(65 ≤ c.toNat ∧ c.toNat ≤ 90)) : lowerChar c = c :=
  if_neg h

theorem lowerChar_toNat_high {c : Char} (h : 65 ≤ c.toNat ∧ c.toNat ≤ 90) :
    (lowerChar c).toNat = c.toNat + 32 := by
  rw [lowerChar, if_pos h]
  exact char_toNat_ofNat_lt (by omega)

theorem lowerChar_idem (c : Char) : lowerChar (lowerChar c) = lowerChar c := by
  by_cases h : 65 ≤ c.toNat ∧ c.toNat ≤ 90
  · exact lowerChar_eq_self_of_neg (by rw [lowerChar_toNat_high h]; omega)
  · rw [lowerChar_eq_self_of_neg h]
    exact lowerChar_eq_self_of_neg h

theorem isPunct_false_of (c : Char) (h46 : c.toNat ≠ 46) (h63 : c.toNat ≠ 63)
    (h33 : c.toNat ≠ 33) (h44 : c.toNat ≠ 44) : isPunct c = false := by
  have e1 : (c == '.') = false :=
    beq_eq_false_iff_ne.mpr fun he => h46 (by rw [he]; decide)
  have e2 : (c == '?') = false :=
    beq_eq_false_iff_ne.mpr fun he => h63 (by rw [he]; decide)
  have e3 : (c == '!') = false :=
    beq_eq_false_iff_ne.mpr fun he => h33 (by rw [he]; decide)
  have e4 : (c == ',') = false :=
    beq_eq_false_iff_ne.mpr fun he => h44 (by rw [he]; decide)
  simp [isPunct, e1, e2, e3, e4]

theorem isPunct_lowerChar (c : Char) : isPunct (lowerChar c) = isPunct c := by
  by_cases h : 65 ≤ c.toNat ∧ c.toNat ≤ 90
  · have h1 : isPunct (lowerChar c) = false :=
      isPunct_false_of _ (by rw [lowerChar_toNat_high h]; omega)
        (by rw [lowerChar_toNat_high h]; omega)
        (by rw [lowerChar_toNat_high h]; omega)
        (by rw [lowerChar_toNat_high h]; omega)
    have h2 : isPunct c = false :=
      isPunct_false_of c (by omega) (by omega) (by omega) (by omega)
    rw [h1, h2]
  · rw [lowerChar_eq_self_of_neg h]

theorem mem_collapseWsAux {c : Char} :
    ∀ (b : Bool) (l : Str), c ∈ collapseWsAux b l → c = ' ' ∨ c ∈ l := by
  intro b l
  induction l generalizing b with
  | nil => simp [collapseWsAux]
  | cons a t ih =>
    by_cases h : isJsWs a
    · cases b with
      | true =>
        intro hc
        rcases ih true (by simpa [collapseWsAux, h] using hc) with h1 | h1
        · exact Or.inl h1
        · exact Or.inr (List.mem_cons_of_mem a h1)
      | false =>
        intro hc
        rcases (by simpa [collapseWsAux, h] using hc : c = ' ' ∨
            c ∈ collapseWsAux true t) with h1 | h1
        · exact Or.inl h1
        · rcases ih true h1 with h2 | h2
          · exact Or.inl h2
          · exact Or.inr (List.mem_cons_of_mem a h2)
    · intro hc
      rcases (by simpa [collapseWsAux, h] using hc : c = a ∨
          c ∈ collapseWsAux false t) with h1 | h1
      · exact Or.inr (h1 ▸ List.mem_cons_self a t)
      · rcases ih false h1 with h2 | h2
        · exact Or.inl h2
        · exact Or.inr (List.mem_cons_of_mem a h2)

theorem trimWs_subset (l : Str) : trimWs l ⊆ l := by
  intro c hc
  rw [trimWs, List.mem_reverse] at hc
  have h1 := (List.dropWhile_suffix isJsWs).subset hc
  rw [List.mem_reverse] at h1
  exact (List.dropWhile_suffix isJsWs).subset h1

/-- The adjacency relation used below: no two adjacent whitespace
characters. -/
def noWsPair (a b : Char) : Prop := ¬(isJsWs a = true ∧ isJsWs b = true)

theorem collapseWsAux_spaces (l : Str) :
    ∀ (b : Bool), ∀ c ∈ collapseWsAux b l, isJsWs c = true → c = ' ' := by
  induction l with
  | nil => simp [collapseWsAux]
  | cons a t ih =>
    intro b c hc
    by_cases h : isJsWs a
    · cases b with
      | true => exact ih true c (by simpa [collapseWsAux, h] using hc)
      | false =>
        rcases (by simpa [collapseWsAux, h] using hc : c = ' ' ∨
            c ∈ collapseWsAux true t) with h1 | h1
        · intro _; exact h1
        · exact ih true c h1
    · rcases (by simpa [collapseWsAux, h] using hc : c = a ∨
          c ∈ collapseWsAux false t) with h1 | h1
      · intro hws
        exact absurd (h1 ▸ hws) (by simpa using h)
      · exact ih false c h1

theorem collapseWsAux_chain (l : Str) :
    (collapseWsAux false l).Chain' noWsPair ∧
      (collapseWsAux true l).Chain' noWsPair ∧
      (∀ d, (collapseWsAux true l).head? = some d → isJsWs d = false) := by
  induction l with
  | nil => simp [collapseWsAux]
  | cons a t ih =>
    obtain ⟨ihA, ihB, ihC⟩ := ih
    by_cases h : isJsWs a
    · refine ⟨?_, by simpa [collapseWsAux, h] using ihB,
        by simpa [collapseWsAux, h] using ihC⟩
      have hout : collapseWsAux false (a :: t) = ' ' :: collapseWsAux true t := by
        simp [collapseWsAux, h]
      rw [hout, List.chain'_cons']
      exact ⟨fun d hd => fun hand => by simp [ihC d hd] at hand, ihB⟩
    · have houtF : collapseWsAux false (a :: t) = a :: collapseWsAux false t := by
        simp [collapseWsAux, h]
      have houtT : collapseWsAux true (a :: t) = a :: collapseWsAux false t := by
        simp [collapseWsAux, h]
      have hchain : (a :: collapseWsAux false t).Chain' noWsPair := by
        rw [List.chain'_cons']
        exact ⟨fun d _ => fun hand => by simp [hand.1] at h, ihA⟩
      refine ⟨houtF ▸ hchain, houtT ▸ hchain, ?_⟩
      intro d hd
      rw [houtT] at hd
      simp only [List.head?_cons, Option.some.injEq] at hd
      subst hd
      simpa using h

theorem chain'_dropWhile {R : Char → Char → Prop} {l : Str} (p : Char → Bool)
    (h : l.Chain' R) : (l.dropWhile p).Chain' R := by
  have hsplit : l.takeWhile p ++ l.dropWhile p = l :=
    List.takeWhile_append_dropWhile p l
  rw [← hsplit] at h
  exact (List.chain'_append.mp h).2.1

theorem chain'_reverse_noWsPair {l : Str} (h : l.Chain' noWsPair) :
    l.reverse.Chain' noWsPair := by
  rw [List.chain'_reverse]
  exact h.imp fun a b hab => fun hand => hab ⟨hand.2, hand.1⟩

theorem trimWs_chain {l : Str} (h : l.Chain' noWsPair) :
    (trimWs l).Chain' noWsPair :=
  chain'_reverse_noWsPair
    (chain'_dropWhile _ (chain'_reverse_noWsPair (chain'_dropWhile _ h)))

theorem collapseWsAux_fixed (l : Str)
    (hsp : ∀ c ∈ l, isJsWs c = true → c = ' ')
    (hch : l.Chain' noWsPair) :
    collapseWsAux false l = l ∧
      ((∀ d, l.head? = some d → isJsWs d = false) → collapseWsAux true l = l) := by
  induction l with
  | nil => simp [collapseWsAux]
  | cons a t ih =>
    have hspT : ∀ c ∈ t, isJsWs c = true → c = ' ' :=
      fun c hc => hsp c (List.mem_cons_of_mem a hc)
    have hchT : t.Chain' noWsPair := (List.chain'_cons'.mp hch).2
    obtain ⟨ihF, ihT⟩ := ih hspT hchT
    by_cases h : isJsWs a
    · have ha : a = ' ' := hsp a (List.mem_cons_self a t) h
      constructor
      · subst ha
        have hheadT : ∀ d, t.head? = some d → isJsWs d = false := by
          intro d hd
          have := (List.chain'_cons'.mp hch).1 d hd
          by_contra hcon
          exact this ⟨h, by simpa using hcon⟩
        show collapseWsAux false (' ' :: t) = ' ' :: t
        rw [show collapseWsAux false (' ' :: t) =
            ' ' :: collapseWsAux true t from by
          simp [collapseWsAux, (by decide : isJsWs ' ' = true)]]
        rw [ihT hheadT]
      · intro hhead
        exact absurd (hhead a rfl) (by simpa using h)
    · constructor
      · simp [collapseWsAux, h, ihF]
      · intro _
        simp [collapseWsAux, h, ihF]

theorem dropWhile_append_single (p : Char → Bool) (xs : Str) {c : Char}
    (hc : p c = false) :
    (xs ++ [c]).dropWhile p = xs.dropWhile p ++ [c] := by
  induction xs with
  | nil => simp [List.dropWhile, hc]
  | cons x t ih =>
    by_cases h : p x <;> simp [List.dropWhile, h, ih]

theorem head_dropWhile_false (p : Char → Bool) (l : Str) {c : Char} :
    (l.dropWhile p).head? = some c → p c = false := by
  induction l with
  | nil => simp [List.dropWhile]
  | cons a t ih =>
    by_cases h : p a
    · intro hc
      exact ih (by simpa [List.dropWhile, h] using hc)
    · intro hc
      have : a = c := by simpa [List.dropWhile, h] using hc
      subst this
      simpa using h

theorem dropWhile_cons_false (p : Char → Bool) {c : Char} (t : Str)
    (hc : p c = false) : (c :: t).dropWhile p = c :: t := by
  simp [List.dropWhile, hc]

theorem trimWs_idem (l : Str) : trimWs (trimWs l) = trimWs l := by
  cases hz : l.dropWhile isJsWs with
  | nil =>
    have htl : trimWs l = [] := by simp [trimWs, hz]
    rw [htl]
    rfl
  | cons c z' =>
    have hc : isJsWs c = false :=
      head_dropWhile_false isJsWs l (by rw [hz]; rfl)
    have htl : trimWs l = c :: ((z'.reverse.dropWhile isJsWs).reverse) := by
      rw [trimWs, hz]
      rw [show (c :: z').reverse = z'.reverse ++ [c] from by simp]
      rw [dropWhile_append_single isJsWs z'.reverse hc]
      simp
    rw [htl]
    cases hw : z'.reverse.dropWhile isJsWs with
    | nil =>
      simp only [hw, List.reverse_nil]
      rw [trimWs, dropWhile_cons_false isJsWs [] hc]
      rw [show (c :: ([] : Str)).reverse = [] ++ [c] from by simp]
      rw [dropWhile_append_single isJsWs [] hc]
      simp [List.dropWhile]
    | cons d v =>
      have hd : isJsWs d = false :=
        head_dropWhile_false isJsWs z'.reverse (by rw [hw]; rfl)
      rw [trimWs, dropWhile_cons_false isJsWs _ hc]
      rw [show (c :: (d :: v).reverse).reverse = d :: v ++ [c] from by simp]
      rw [List.cons_append, dropWhile_cons_false isJsWs _ hd]
      simp

/-- C8: the scorer's normalization is idempotent — re-normalizing an already
normalized string is a no-op, for every input string. -/
theorem C8_normalize_idempotent (l : Str) : clean (clean l) = clean l := by
  have hmem : ∀ c ∈ clean l, isPunct c = false ∧ lowerChar c = c := by
    intro c hc
    have hc1 : c ∈ collapseWsAux false (lowerStr (stripPunct l)) :=
      trimWs_subset _ hc
    rcases mem_collapseWsAux false _ hc1 with h1 | h1
    · subst h1
      exact ⟨by decide, by decide⟩
    · obtain ⟨b, hb, rfl⟩ := List.mem_map.mp h1
      have hbp : isPunct b = false := by
        simpa using (List.mem_filter.mp hb).2
      exact ⟨by rw [isPunct_lowerChar]; exact hbp, lowerChar_idem b⟩
  have h1 : stripPunct (clean l) = clean l := by
    rw [stripPunct, List.filter_eq_self]
    intro c hc
    simp [(hmem c hc).1]
  have h2 : lowerStr (clean l) = clean l := by
    rw [lowerStr]
    conv_rhs => rw [← List.map_id (clean l)]
    exact List.map_congr_left fun c hc => (hmem c hc).2
  have hsp : ∀ c ∈ clean l, isJsWs c = true → c = ' ' := by
    intro c hc
    exact collapseWsAux_spaces _ false c (trimWs_subset _ hc)
  have hch : (clean l).Chain' noWsPair :=
    trimWs_chain (collapseWsAux_chain (lowerStr (stripPunct l))).1
  have h3 : collapseWs (clean l) = clean l :=
    (collapseWsAux_fixed _ hsp hch).1
  calc clean (clean l)
      = trimWs (collapseWs (lowerStr (stripPunct (clean l)))) := rfl
    _ = trimWs (collapseWs (clean l)) := by rw [h1, h2]
    _ = trimWs (clean l) := by rw [h3]
    _ = clean l := trimWs_idem (collapseWs (lowerStr (stripPunct l)))

/-!
## Assembler scenarios
-/

/-- The four-blank question of the specification's example. -/
def qFour : Question :=
  { id := "q4".toList, context := "c".toList,
    template := "_____ _____ _____ _____.".toList,
    scrambledWords := ["I".toList, "am".toList, "a".toList, "student".toList],
    correctSentence := "I am a student.".toList,
    distractor := "dog".toList, difficulty := "Middle School".toList }

/-- The example assembler, freshly initialized (pool order as built, before
the display shuffle, which never affects placement or the built answer). -/
def c6s0 : BuilderState := initBuilder qFour (assemblerPoolContents qFour)

/-- After placing `I`. -/
def c6s1 : BuilderState := handleWordClick c6s0 "I".toList

/-- After placing `I, am`. -/
def c6s2 : BuilderState := handleWordClick c6s1 "am".toList

/-- After placing `I, am, a`. -/
def c6s3 : BuilderState := handleWordClick c6s2 "a".toList

/-- After placing `I, am, a, student`. -/
def c6s4 : BuilderState := handleWordClick c6s3 "student".toList

/-- C6: `buildAnswer` is the template-order concatenation of literal segments
and placed words (empty for an unfilled slot) with whitespace runs collapsed
to one space and both ends trimmed; on the example template
`"_____ _____ _____ _____."` with `I, am, a, student` placed in slot order it
returns `"I am a student."`, and `isComplete` stays false until the fourth
placement. -/
theorem C6_buildAnswer :
    (∀ s : BuilderState,
      buildAnswer s = trimWs (collapseWs (joinedSentence s))) ∧
    buildAnswer c6s4 = "I am a student.".toList ∧
    isComplete c6s0 = false ∧ isComplete c6s1 = false ∧
    isComplete c6s2 = false ∧ isComplete c6s3 = false ∧
    isComplete c6s4 = true := by
  exact ⟨fun s => rfl, by decide, by decide, by decide, by decide, by decide,
    by decide⟩

/-- `find?` over `range n`: the found index satisfies the predicate and every
smaller index fails it. -/
theorem find?_range_first {p : Nat → Bool} :
    ∀ {n i : Nat}, (List.range n).find? p = some i →
      i < n ∧ p i = true ∧ ∀ k < i, p k = false := by
  have main : ∀ (l : List Nat) (i : Nat), l.find? p = some i →
      ∃ m, l.get? m = some i ∧ p i = true ∧
        ∀ k < m, ∀ x, l.get? k = some x → p x = false := by
    intro l
    induction l with
    | nil => intro i h; simp [List.find?] at h
    | cons b t ih =>
      intro i h
      by_cases hb : p b
      · have hb' : (b :: t).find? p = some b := List.find?_cons_of_pos _ hb
        rw [hb'] at h
        have : b = i := Option.some.inj h
        subst this
        exact ⟨0, rfl, hb, fun k hk => by omega⟩
      · rw [List.find?_cons_of_neg _ (by simpa using hb)] at h
        obtain ⟨m, hm, hpa, hmin⟩ := ih i h
        refine ⟨m + 1, by simpa using hm, hpa, ?_⟩
        intro k hk x hx
        cases k with
        | zero =>
          have : b = x := by simpa using hx
          subst this
          simpa using hb
        | succ k' => exact hmin k' (by omega) x (by simpa using hx)
  intro n i h
  obtain ⟨m, hm, hpa, hmin⟩ := main _ i h
  have hmn : m < n := by
    by_contra hcon
    have hnone : (List.range n).get? m = none :=
      List.get?_eq_none.mpr (by simpa using Nat.not_lt.mp hcon)
    rw [hnone] at hm
    exact Option.noConfusion hm
  have him : i = m := by
    have := List.get?_range hmn
    rw [this] at hm
    exact (Option.some.inj hm).symm
  subst him
  refine ⟨hmn, hpa, ?_⟩
  intro k hk
  exact hmin k hk k (List.get?_range (by omega))

/-- All blank slots of the assembler hold an assigned word. -/
def allBlanksFilled (s : BuilderState) : Prop :=
  ∀ i ∈ List.range s.parts.length,
    s.parts.getD i (some []) = none → (s.placed.getD i none).isSome = true

instance (s : BuilderState) : Decidable (allBlanksFilled s) := by
  unfold allBlanksFilled
  exact inferInstance

/-- A question whose scrambled words contain the empty string (the parser can
produce such records, e.g. from a degenerate scrambled-words field). -/
def qEmptyWord : Question :=
  { id := "qe".toList, context := "c".toList, template := "___".toList,
    scrambledWords := [[]], correctSentence := "x".toList,
    distractor := "x".toList, difficulty := "Middle School".toList }

/-- The assembler for `qEmptyWord` after placing the empty-string word (which
is in the pool) into the only blank. -/
def c5s1 : BuilderState :=
  handleWordClick (initBuilder qEmptyWord (assemblerPoolContents qEmptyWord)) []

/-- C5, counterexample: in the reachable state `c5s1` every blank slot is
filled (the single blank holds the empty-string word), yet `placeWord "x"` is
not a no-op: the JavaScript truthiness test `!placedWords[i]` treats the
slot holding `""` as empty, so the code overwrites it and removes `"x"` from
the pool. -/
theorem C5_counterexample :
    allBlanksFilled c5s1 ∧ handleWordClick c5s1 "x".toList ≠ c5s1 := by
  exact ⟨by decide, by decide⟩

/-- C5, amended: `placeWord(word)` is a no-op exactly when every blank slot
holds a non-empty word (a slot holding the empty string counts as empty,
because of the JavaScript truthiness test).  Otherwise the word is assigned
to the first blank slot, in template order, that is empty or holds the empty
string — an overwritten empty string is discarded — and the first occurrence
of the word is removed from the pool; when the word is not in the pool the
assignment still happens and the pool is unchanged. -/
theorem C5_placeWord (s : BuilderState) (w : Str) :
    (firstEmptyBlankIndex s = none ↔
      ∀ i ∈ List.range s.parts.length,
        s.parts.getD i (some []) = none →
          jsFalsyEmpty (s.placed.getD i none) = false) ∧
    (firstEmptyBlankIndex s = none → handleWordClick s w = s) ∧
    ∀ i, firstEmptyBlankIndex s = some i →
      (handleWordClick s w).parts = s.parts ∧
      (handleWordClick s w).placed = s.placed.set i (some w) ∧
      (handleWordClick s w).available = s.available.erase w ∧
      s.parts.getD i (some []) = none ∧
      jsFalsyEmpty (s.placed.getD i none) = true ∧
      (∀ k < i,
        ¬(s.parts.getD k (some []) = none ∧
          jsFalsyEmpty (s.placed.getD k none) = true)) ∧
      (w ∉ s.available → (handleWordClick s w).available = s.available) ∧
      (w ∈ s.available →
        ((s.available.erase w).count w + 1 = s.available.count w ∧
          ∀ v, v ≠ w → (s.available.erase w).count v = s.available.count v)) := by
  refine ⟨?_, ?_, ?_⟩
  · rw [firstEmptyBlankIndex, List.find?_eq_none]
    constructor
    · intro h i hi hpart
      have h2 := h i hi
      cases hfal : jsFalsyEmpty (s.placed.getD i none)
      · rfl
      · exfalso
        apply h2
        rw [hpart, hfal]
        rfl
    · intro h i hi hcontra
      rw [Bool.and_eq_true, beq_iff_eq] at hcontra
      obtain ⟨h1, h2⟩ := hcontra
      have h3 := h i hi h1
      rw [h3] at h2
      exact Bool.noConfusion h2
  · intro h
    simp [handleWordClick, h]
  · intro i h
    obtain ⟨hlt, hpi, hmin⟩ :=
      find?_range_first (p := fun i =>
        s.parts.getD i (some []) == none &&
          jsFalsyEmpty (s.placed.getD i none)) h
    rw [Bool.and_eq_true, beq_iff_eq] at hpi
    refine ⟨by simp [handleWordClick, h], by simp [handleWordClick, h],
      by simp [handleWordClick, h], hpi.1, hpi.2, ?_, ?_, ?_⟩
    · intro k hk hand
      have h4 := hmin k hk
      rw [hand.1, hand.2] at h4
      exact Bool.noConfusion h4
    · intro hw
      simp [handleWordClick, h, List.erase_of_not_mem hw]
    · intro hw
      refine ⟨?_, fun v hv => List.count_erase_of_ne hv _⟩
      have h1 := List.count_erase_self w s.available
      have h2 : 1 ≤ s.available.count w := List.one_le_count_iff.mpr hw
      omega

/-- Witness for C5 on the example assembler: the first empty blank of the
fresh four-blank state is slot 1 and placing `I` assigns it there. -/
theorem C5_placeWord_witness :
    firstEmptyBlankIndex c6s0 = some 1 ∧
    (handleWordClick c6s0 "I".toList).placed =
      c6s0.placed.set 1 (some "I".toList) ∧
    (handleWordClick c6s0 "I".toList).available =
      c6s0.available.erase "I".toList := by
  refine ⟨by decide, ?_, ?_⟩
  · exact ((C5_placeWord c6s0 "I".toList).2.2 1 (by decide)).2.1
  · exact ((C5_placeWord c6s0 "I".toList).2.2 1 (by decide)).2.2.1

/-!
## Assembler reachability and invariants
-/

/-- States of one `SentenceBuilder` instance reachable from initialization by
word clicks and blank clicks (any arguments). -/
inductive ReachB (q : Question) : BuilderState → Prop where
  | init (pool : List Str) : ReachB q (initBuilder q pool)
  | place {s : BuilderState} (w : Str) :
      ReachB q s → ReachB q (handleWordClick s w)
  | clear {s : BuilderState} (i : Nat) :
      ReachB q s → ReachB q (handleBlankClick s i)

theorem getD_eq_get?_getD (l : List (Option Str)) (i : Nat) (d : Option Str) :
    l.getD i d = (l.get? i).getD d := by
  simp [List.getD_eq_getElem?_getD, List.get?_eq_getElem?]

theorem getD_none_iff {l : List (Option Str)} {i : Nat} (h : i < l.length) :
    l.getD i (some []) = none ↔ l.get? i = some none := by
  rw [getD_eq_get?_getD]
  cases hg : l.get? i with
  | none =>
    rw [List.get?_eq_none] at hg
    omega
  | some v => simp

theorem getD_isSome_iff {l : List (Option Str)} {i : Nat} (h : i < l.length) :
    (l.getD i none).isSome = true ↔ ∃ w, l.get? i = some (some w) := by
  rw [getD_eq_get?_getD]
  cases hg : l.get? i with
  | none =>
    rw [List.get?_eq_none] at hg
    omega
  | some v => cases v <;> simp

/-- The structural invariant of reachable assembler states: the `placedWords`
record is as long as the template and only blank positions hold words. -/
theorem reachB_inv {q : Question} {s : BuilderState} (hr : ReachB q s) :
    s.placed.length = s.parts.length ∧
      ∀ i w, s.placed.get? i = some (some w) → s.parts.get? i = some none := by
  induction hr with
  | init pool =>
    constructor
    · simp [initBuilder]
    · intro i w h
      have hpl : (initBuilder q pool).placed =
          List.replicate (splitTemplate q.template).length none := rfl
      rw [hpl] at h
      have := List.eq_of_mem_replicate (List.get?_mem h)
      exact Option.noConfusion this
  | place w _ ih =>
    rename_i s _
    cases hf : firstEmptyBlankIndex s with
    | none => simpa [handleWordClick, hf] using ih
    | some j =>
      obtain ⟨hlt, hpj, _⟩ := find?_range_first hf
      rw [Bool.and_eq_true, beq_iff_eq] at hpj
      have hset : (handleWordClick s w).placed = s.placed.set j (some w) := by
        simp [handleWordClick, hf]
      have hparts : (handleWordClick s w).parts = s.parts := by
        simp [handleWordClick, hf]
      constructor
      · rw [hset, hparts, List.length_set]
        exact ih.1
      · intro i v h
        rw [hset] at h
        rw [hparts]
        by_cases hij : j = i
        · subst hij
          exact (getD_none_iff hlt).mp hpj.1
        · rw [List.get?_set_ne _ _ hij] at h
          exact ih.2 i v h
  | clear i _ ih =>
    rename_i s _
    cases hg : s.placed[i]?.getD none with
    | none => simpa [handleBlankClick, hg] using ih
    | some v =>
      by_cases hv : v = []
      · simpa [handleBlankClick, hg, hv] using ih
      · have hset : (handleBlankClick s i).placed = s.placed.set i none := by
          simp [handleBlankClick, hg, hv]
        have hparts : (handleBlankClick s i).parts = s.parts := by
          simp [handleBlankClick, hg, hv]
        constructor
        · rw [hset, hparts, List.length_set]
          exact ih.1
        · intro i' w h
          rw [hset] at h
          rw [hparts]
          by_cases hii : i = i'
          · subst hii
            rcases Nat.lt_or_ge i s.placed.length with hlt | hge
            · rw [List.get?_set_eq_of_lt _ hlt] at h
              exact Option.noConfusion (Option.some.inj h)
            · rw [List.get?_eq_none.mpr (by simpa using hge)] at h
              exact Option.noConfusion h
          · rw [List.get?_set_ne _ _ hii] at h
            exact ih.2 i' w h

/-- Under the keys-within-blanks invariant there are at most as many placed
words as blank slots. -/
theorem keys_le_blanks : ∀ (ps pl : List (Option Str)),
    pl.length = ps.length →
    (∀ i w, pl.get? i = some (some w) → ps.get? i = some none) →
    (pl.filter (fun o => o.isSome)).length ≤
      (ps.filter (fun p => p == none)).length := by
  intro ps
  induction ps with
  | nil =>
    intro pl hlen _
    rw [List.length_nil, List.length_eq_zero] at hlen
    subst hlen
    simp
  | cons p ps' ih =>
    intro pl hlen hpt
    cases pl with
    | nil => simp
    | cons o pl' =>
      have hlen' : pl'.length = ps'.length := by simpa using hlen
      have hpt' : ∀ i w, pl'.get? i = some (some w) → ps'.get? i = some none :=
        fun i w h => by simpa using hpt (i + 1) w (by simpa using h)
      have ihle := ih pl' hlen' hpt'
      cases o with
      | some w =>
        have hp : p = none := by simpa using hpt 0 w rfl
        subst hp
        simpa [List.filter_cons] using Nat.succ_le_succ ihle
      | none =>
        by_cases hp : p = none
        · subst hp
          have e1 : ((none :: pl').filter (fun o => o.isSome)) =
              pl'.filter (fun o => o.isSome) := by simp
          have e2 : ((none :: ps').filter (fun p => p == none)) =
              none :: ps'.filter (fun p => p == none) := by simp
          rw [e1, e2, List.length_cons]
          omega
        · have hb : (p == none) = false := by simpa using hp
          simpa [List.filter_cons, hb] using ihle

/-- Under the keys-within-blanks invariant, the blank count equals the key
count exactly when every blank position holds a word. -/
theorem keys_eq_blanks_iff : ∀ (ps pl : List (Option Str)),
    pl.length = ps.length →
    (∀ i w, pl.get? i = some (some w) → ps.get? i = some none) →
    (((ps.filter (fun p => p == none)).length =
        (pl.filter (fun o => o.isSome)).length) ↔
      ∀ i, ps.get? i = some none → ∃ w, pl.get? i = some (some w)) := by
  intro ps
  induction ps with
  | nil =>
    intro pl hlen _
    rw [List.length_nil, List.length_eq_zero] at hlen
    subst hlen
    simp
  | cons p ps' ih =>
    intro pl hlen hpt
    cases pl with
    | nil => simp at hlen
    | cons o pl' =>
      have hlen' : pl'.length = ps'.length := by simpa using hlen
      have hpt' : ∀ i w, pl'.get? i = some (some w) → ps'.get? i = some none :=
        fun i w h => by simpa using hpt (i + 1) w (by simpa using h)
      have ihiff := ih pl' hlen' hpt'
      have hsplit : (∀ i, (p :: ps').get? i = some none →
          ∃ w, (o :: pl').get? i = some (some w)) ↔
          ((p = none → ∃ w, o = some w) ∧
            ∀ i, ps'.get? i = some none → ∃ w, pl'.get? i = some (some w)) := by
        constructor
        · intro h
          refine ⟨fun hp => ?_, fun i hi => ?_⟩
          · obtain ⟨w, hw⟩ := h 0 (by simpa using hp)
            exact ⟨w, by simpa using hw⟩
          · obtain ⟨w, hw⟩ := h (i + 1) (by simpa using hi)
            exact ⟨w, by simpa using hw⟩
        · intro ⟨h0, hrest⟩ i hi
          cases i with
          | zero =>
            obtain ⟨w, hw⟩ := h0 (by simpa using hi)
            exact ⟨w, by simpa using hw⟩
          | succ i' =>
            obtain ⟨w, hw⟩ := hrest i' (by simpa using hi)
            exact ⟨w, by simpa using hw⟩
      rw [hsplit]
      cases o with
      | some w =>
        have hp : p = none := by simpa using hpt 0 w rfl
        subst hp
        have hcount : (((none :: ps').filter (fun p => p == none)).length =
            ((some w :: pl').filter (fun o => o.isSome)).length) ↔
            ((ps'.filter (fun p => p == none)).length =
              (pl'.filter (fun o => o.isSome)).length) := by
          simp [List.filter_cons]
        rw [hcount, ihiff]
        constructor
        · intro h
          exact ⟨fun _ => ⟨w, rfl⟩, h⟩
        · exact fun h => h.2
      | none =>
        by_cases hp : p = none
        · subst hp
          have hle := keys_le_blanks ps' pl' hlen' hpt'
          have hcount : (((none :: ps').filter (fun p => p == none)).length =
              ((none :: pl').filter (fun o => o.isSome)).length) ↔
              ((ps'.filter (fun p => p == none)).length + 1 =
                (pl'.filter (fun o => o.isSome)).length) := by
            simp [List.filter_cons]
          rw [hcount]
          constructor
          · intro h
            exfalso
            omega
          · intro ⟨h0, _⟩
            obtain ⟨w, hw⟩ := h0 rfl
            exact Option.noConfusion hw
        · have hb : (p == none) = false := by simpa using hp
          have hcount : (((p :: ps').filter (fun p => p == none)).length =
              ((none :: pl').filter (fun o => o.isSome)).length) ↔
              ((ps'.filter (fun p => p == none)).length =
                (pl'.filter (fun o => o.isSome)).length) := by
            simp [List.filter_cons, hb]
          rw [hcount, ihiff]
          constructor
          · intro h
            exact ⟨fun hc => absurd hc hp, h⟩
          · exact fun h => h.2

/-- C7: on every assembler state reachable from initialization via word and
blank clicks, the code's comparison of the blank-segment count with the
placed-word count (`isComplete`) is true exactly when every blank slot holds
a word. -/
theorem C7_isComplete (q : Question) (s : BuilderState) (hr : ReachB q s) :
    isComplete s = true ↔ allBlanksFilled s := by
  obtain ⟨hlen, hkeys⟩ := reachB_inv hr
  have hcount := keys_eq_blanks_iff s.parts s.placed hlen hkeys
  simp only [isComplete, beq_iff_eq]
  rw [hcount]
  unfold allBlanksFilled
  constructor
  · intro h i hi hgd
    have hil : i < s.parts.length := List.mem_range.mp hi
    have hip : s.parts.get? i = some none := (getD_none_iff hil).mp hgd
    obtain ⟨w, hw⟩ := h i hip
    exact (getD_isSome_iff (by omega : i < s.placed.length)).mpr ⟨w, hw⟩
  · intro h i hip
    have hil : i < s.parts.length := by
      by_contra hcon
      rw [List.get?_eq_none.mpr (Nat.not_lt.mp hcon)] at hip
      exact Option.noConfusion hip
    have hgd := h i (List.mem_range.mpr hil) ((getD_none_iff hil).mpr hip)
    exact (getD_isSome_iff (by omega : i < s.placed.length)).mp hgd

/-- Witness for C7 on the reachable state with `I` placed in the four-blank
example. -/
theorem C7_isComplete_witness :
    isComplete c6s1 = true ↔ allBlanksFilled c6s1 :=
  C7_isComplete qFour c6s1
    (ReachB.place "I".toList (ReachB.init (assemblerPoolContents qFour)))

/-- States reachable by the protocol of the conservation claim: `placeWord`
only with a word currently in the pool, `clearSlot` freely; the initial pool
is the shuffled union of the scrambled words and the distractor. -/
inductive ReachPool (q : Question) : BuilderState → Prop where
  | init (pool : List Str) (hp : pool.Perm (assemblerPoolContents q)) :
      ReachPool q (initBuilder q pool)
  | place {s : BuilderState} (w : Str) (hw : w ∈ s.available) :
      ReachPool q s → ReachPool q (handleWordClick s w)
  | clear {s : BuilderState} (i : Nat) :
      ReachPool q s → ReachPool q (handleBlankClick s i)

/-- Like `ReachPool`, but `placeWord` is additionally restricted to non-empty
words (the amendment forced by the counterexample). -/
inductive ReachPoolNE (q : Question) : BuilderState → Prop where
  | init (pool : List Str) (hp : pool.Perm (assemblerPoolContents q)) :
      ReachPoolNE q (initBuilder q pool)
  | place {s : BuilderState} (w : Str) (hw : w ∈ s.available) (hne : w ≠ []) :
      ReachPoolNE q s → ReachPoolNE q (handleWordClick s w)
  | clear {s : BuilderState} (i : Nat) :
      ReachPoolNE q s → ReachPoolNE q (handleBlankClick s i)

/-- C10, counterexample: with a record whose scrambled words contain the
empty string, placing `""` (a word of the pool) and then `"x"` (also in the
pool) reaches a state whose pool together with the placed words is no longer
a permutation of scrambled words plus distractor: the overwritten empty
string is lost.  This refutes the conservation invariant for the claim's own
protocol. -/
theorem C10_counterexample :
    ReachPool qEmptyWord (handleWordClick c5s1 "x".toList) ∧
    ¬((handleWordClick c5s1 "x".toList).available ++
        placedWordsList (handleWordClick c5s1 "x".toList)).Perm
      (qEmptyWord.scrambledWords ++ [qEmptyWord.distractor]) := by
  constructor
  · exact ReachPool.place "x".toList (by decide)
      (ReachPool.place [] (by decide)
        (ReachPool.init (assemblerPoolContents qEmptyWord) (List.Perm.refl _)))
  · intro hp
    exact absurd (hp.count_eq []) (by decide)

/-- A list is a permutation of any element of it consed onto the erasure of
that element (stated for the `BEq` instance used by the assembler's
embedding). -/
theorem perm_cons_erase_beq {l : List Str} {a : Str} (h : a ∈ l) :
    l.Perm (a :: l.erase a) := by
  induction l with
  | nil => cases h
  | cons x t ih =>
    by_cases hx : x = a
    · subst hx
      have hb : (x == x) = true := by simp
      rw [show (x :: t).erase x = t from by rw [List.erase_cons, if_pos hb]]
    · have hb : (x == a) = false := beq_eq_false_iff_ne.mpr hx
      rw [show (x :: t).erase a = x :: t.erase a from by
        rw [List.erase_cons, if_neg (by simp [hb])]]
      have hmem : a ∈ t := by
        cases List.mem_cons.mp h with
        | inl hc => exact absurd hc.symm hx
        | inr hc => exact hc
      exact ((ih hmem).cons x).trans (List.Perm.swap a x _)

theorem filterMap_set_some {l : List (Option Str)} :
    ∀ {j : Nat}, l.get? j = some none → ∀ (w : Str),
      ((l.set j (some w)).filterMap id).Perm (w :: l.filterMap id) := by
  induction l with
  | nil => intro j h w; simp at h
  | cons a t ih =>
    intro j h w
    cases j with
    | zero =>
      have ha : a = none := by simpa using h
      subst ha
      simp [List.set, List.filterMap_cons]
    | succ j' =>
      have h' : t.get? j' = some none := by simpa using h
      cases a with
      | none => simpa [List.set, List.filterMap_cons] using ih h' w
      | some b =>
        have hset : ((some b :: t).set (j' + 1) (some w)).filterMap id =
            b :: (t.set j' (some w)).filterMap id := by
          simp [List.set, List.filterMap_cons]
        rw [hset, show ((some b :: t).filterMap id) = b :: t.filterMap id from
          by simp [List.filterMap_cons]]
        exact ((ih h' w).cons b).trans (List.Perm.swap w b _)

theorem filterMap_set_none {l : List (Option Str)} :
    ∀ {j : Nat} {w : Str}, l.get? j = some (some w) →
      (w :: (l.set j none).filterMap id).Perm (l.filterMap id) := by
  induction l with
  | nil => intro j w h; simp at h
  | cons a t ih =>
    intro j w h
    cases j with
    | zero =>
      have ha : a = some w := by simpa using h
      subst ha
      simp [List.set, List.filterMap_cons]
    | succ j' =>
      have h' : t.get? j' = some (some w) := by simpa using h
      cases a with
      | none => simpa [List.set, List.filterMap_cons] using ih h'
      | some b =>
        have hset : ((some b :: t).set (j' + 1) none).filterMap id =
            b :: (t.set j' none).filterMap id := by
          simp [List.set, List.filterMap_cons]
        rw [hset, show ((some b :: t).filterMap id) = b :: t.filterMap id from
          by simp [List.filterMap_cons]]
        exact (List.Perm.swap b w _).trans ((ih h').cons b)

theorem filterMap_id_replicate_none (n : Nat) :
    (List.replicate n (none : Option Str)).filterMap id = [] := by
  induction n with
  | zero => rfl
  | succ k ih =>
    rw [List.replicate, List.filterMap_cons]
    exact ih

/-- The conservation invariant for the amended protocol: lengths match, no
slot holds the empty string, and pool plus placed words is a permutation of
the scrambled words plus the distractor. -/
theorem poolInv_of_reach {q : Question} {s : BuilderState}
    (hr : ReachPoolNE q s) :
    s.placed.length = s.parts.length ∧
      (∀ j w, s.placed.get? j = some (some w) → w ≠ []) ∧
      (s.available ++ placedWordsList s).Perm
        (q.scrambledWords ++ [q.distractor]) := by
  induction hr with
  | init pool hp =>
    refine ⟨by simp [initBuilder], ?_, ?_⟩
    · intro j w h
      have hpl : (initBuilder q pool).placed =
          List.replicate (splitTemplate q.template).length none := rfl
      rw [hpl] at h
      exact absurd (List.eq_of_mem_replicate (List.get?_mem h))
        (fun hc => Option.noConfusion hc)
    · have hpl : placedWordsList (initBuilder q pool) = [] :=
        filterMap_id_replicate_none _
      rw [show (initBuilder q pool).available = pool from rfl, hpl,
        List.append_nil]
      simpa [assemblerPoolContents] using hp
  | place w hw hne _ ih =>
    rename_i s _
    obtain ⟨ihlen, ihne, ihperm⟩ := ih
    cases hf : firstEmptyBlankIndex s with
    | none =>
      rw [show handleWordClick s w = s from by simp [handleWordClick, hf]]
      exact ⟨ihlen, ihne, ihperm⟩
    | some j =>
      obtain ⟨hlt, hpj, _⟩ := find?_range_first hf
      rw [Bool.and_eq_true, beq_iff_eq] at hpj
      have hjlen : j < s.placed.length := by omega
      have hjv : s.placed.get? j = some none := by
        cases hg : s.placed.get? j with
        | none =>
          rw [List.get?_eq_none] at hg
          omega
        | some v =>
          have hgd : s.placed.getD j none = v := by
            rw [getD_eq_get?_getD, hg]
            rfl
          have hfal := hpj.2
          rw [hgd] at hfal
          cases v with
          | none => rfl
          | some u =>
            have hu : u = [] := by simpa [jsFalsyEmpty] using hfal
            exact absurd (hu ▸ hg) (fun hc =>
              (ihne j u hg) hu)
      have hset : (handleWordClick s w).placed = s.placed.set j (some w) := by
        simp [handleWordClick, hf]
      have hav : (handleWordClick s w).available = s.available.erase w := by
        simp [handleWordClick, hf]
      have hparts : (handleWordClick s w).parts = s.parts := by
        simp [handleWordClick, hf]
      refine ⟨?_, ?_, ?_⟩
      · rw [hset, hparts, List.length_set]
        exact ihlen
      · intro j' v h
        rw [hset] at h
        by_cases hij : j = j'
        · subst hij
          rw [List.get?_set_eq_of_lt _ hjlen] at h
          have : w = v := Option.some.inj (Option.some.inj h)
          exact this ▸ hne
        · rw [List.get?_set_ne _ _ hij] at h
          exact ihne j' v h
      · unfold placedWordsList
        rw [hset, hav]
        have h1 : ((s.placed.set j (some w)).filterMap id).Perm
            (w :: s.placed.filterMap id) := filterMap_set_some hjv w
        have h2 : (s.available.erase w ++
            (s.placed.set j (some w)).filterMap id).Perm
            (s.available.erase w ++ (w :: s.placed.filterMap id)) :=
          List.Perm.append_left _ h1
        have h3 : (s.available.erase w ++ (w :: s.placed.filterMap id)).Perm
            (w :: (s.available.erase w ++ s.placed.filterMap id)) :=
          List.perm_middle
        have h4 : (w :: s.available.erase w ++ s.placed.filterMap id).Perm
            (s.available ++ s.placed.filterMap id) :=
          List.Perm.append_right _ (perm_cons_erase_beq hw).symm
        exact (((h2.trans h3).trans h4).trans ihperm)
  | clear i _ ih =>
    rename_i s _
    obtain ⟨ihlen, ihne, ihperm⟩ := ih
    cases hg : s.placed[i]?.getD none with
    | none =>
      rw [show handleBlankClick s i = s from by simp [handleBlankClick, hg]]
      exact ⟨ihlen, ihne, ihperm⟩
    | some v =>
      have hgv : s.placed.get? i = some (some v) := by
        rw [List.get?_eq_getElem?]
        cases hu : s.placed[i]? with
        | none => rw [hu] at hg; exact Option.noConfusion hg
        | some u =>
          rw [hu] at hg
          simp only [Option.getD_some] at hg
          rw [hg]
      have hv : v ≠ [] := ihne i v hgv
      have hvne : (v = []) = False := by simp [hv]
      have hset : (handleBlankClick s i).placed = s.placed.set i none := by
        simp [handleBlankClick, hg, hv]
      have hav : (handleBlankClick s i).available = s.available ++ [v] := by
        simp [handleBlankClick, hg, hv]
      have hparts : (handleBlankClick s i).parts = s.parts := by
        simp [handleBlankClick, hg, hv]
      refine ⟨?_, ?_, ?_⟩
      · rw [hset, hparts, List.length_set]
        exact ihlen
      · intro j' u h
        rw [hset] at h
        by_cases hij : i = j'
        · subst hij
          have hilen : i < s.placed.length := by
            by_contra hcon
            rw [List.get?_eq_none.mpr (Nat.not_lt.mp hcon)] at hgv
            exact Option.noConfusion hgv
          rw [List.get?_set_eq_of_lt _ hilen] at h
          exact Option.noConfusion (Option.some.inj h)
        · rw [List.get?_set_ne _ _ hij] at h
          exact ihne j' u h
      · unfold placedWordsList
        rw [hset, hav]
        have h1 : (v :: (s.placed.set i none).filterMap id).Perm
            (s.placed.filterMap id) := filterMap_set_none hgv
        have h2 : (s.available ++ [v] ++
            (s.placed.set i none).filterMap id).Perm
            (s.available ++ (v :: (s.placed.set i none).filterMap id)) := by
          rw [List.append_assoc]
          exact List.Perm.refl _
        have h3 : (s.available ++
            (v :: (s.placed.set i none).filterMap id)).Perm
            (s.available ++ s.placed.filterMap id) :=
          List.Perm.append_left _ h1
        exact ((h2.trans h3).trans ihperm)

/-- C10, amended: for every state reachable from initialization by
`placeWord` calls whose argument is a non-empty word currently in the pool
and by `clearSlot` calls, the multiset of pool words together with the
placed words equals the multiset of scrambled words plus the distractor. -/
theorem C10_word_conservation (q : Question) (s : BuilderState)
    (hr : ReachPoolNE q s) :
    (s.available ++ placedWordsList s).Perm
      (q.scrambledWords ++ [q.distractor]) :=
  (poolInv_of_reach hr).2.2

/-- Witness for C10 on the four-blank example after placing `I`. -/
theorem C10_word_conservation_witness :
    (c6s1.available ++ placedWordsList c6s1).Perm
      (qFour.scrambledWords ++ [qFour.distractor]) :=
  C10_word_conservation qFour c6s1
    (ReachPoolNE.place "I".toList (by decide) (by decide)
      (ReachPoolNE.init (assemblerPoolContents qFour) (List.Perm.refl _)))

/-!
## The assembler's display shuffle versus Fisher-Yates
-/

/-- A three-word question for the shuffle comparison. -/
def qTri : Question :=
  { id := "q3".toList, context := "c".toList,
    template := "___ ___ ___".toList,
    scrambledWords := ["a".toList, "b".toList],
    correctSentence := "a b".toList, distractor := "c".toList,
    difficulty := "Middle School".toList }

/-- The pool the assembler builds for `qTri` before shuffling. -/
def pool3 : List Str := assemblerPoolContents qTri

/-- The draw stream of the two Fisher-Yates iterations on a three-element
list: the loop index 2 draws from `[0, 2]`, the loop index 1 from
`[0, 1]`. -/
def fyDrawsOf (d : Fin 3 × Fin 2) : Nat → Nat :=
  fun i => if i = 2 then d.1.val else d.2.val

/-- The number of draw pairs under which the Fisher-Yates shuffle of the
three-word pool produces a given ordering (out of 6 equally likely draw
pairs). -/
def fyCount3 (L : List Str) : Nat :=
  ((Finset.univ : Finset (Fin 3 × Fin 2)).filter
    (fun d => fisherYates (fyDrawsOf d) pool3 = L)).card

/-- The six draw pairs, listed. -/
def drawPairs : List (Fin 3 × Fin 2) :=
  [(0, 0), (0, 1), (1, 0), (1, 1), (2, 0), (2, 1)]

/-- The six orderings of the three-word pool. -/
def orderings3 : List (List Str) :=
  [["a".toList, "b".toList, "c".toList],
   ["a".toList, "c".toList, "b".toList],
   ["b".toList, "a".toList, "c".toList],
   ["b".toList, "c".toList, "a".toList],
   ["c".toList, "a".toList, "b".toList],
   ["c".toList, "b".toList, "a".toList]]

/-- No procedure driven by finitely many fair coins — and the comparator
`() => Math.random() - 0.5` passed to `Array.prototype.sort` is determined by
such coins, however the engine's sort consumes it — induces the same
distribution on orderings of the three-word pool as the Fisher-Yates shuffle:
the latter is uniform (probability 1/6 each), while every coin-driven
outcome has a dyadic probability, and matching would force `3 ∣ 2 ^ m`. -/
theorem no_coin_model_matches_fy :
    ∀ (m : Nat) (g : (Fin m → Bool) → List Str),
      ¬ ∀ L : List Str,
        ((Finset.univ : Finset (Fin m → Bool)).filter
          (fun x => g x = L)).card * 6 = 2 ^ m * fyCount3 L := by
  intro m g hall
  have h0 := hall ["b".toList, "c".toList, "a".toList]
  have hc : fyCount3 ["b".toList, "c".toList, "a".toList] = 1 := by decide
  rw [hc, Nat.mul_one] at h0
  have h3 : (3 : Nat) ∣ 2 ^ m :=
    ⟨((Finset.univ : Finset (Fin m → Bool)).filter
      (fun x => g x = ["b".toList, "c".toList, "a".toList])).card * 2,
      by omega⟩
  have h32 := Nat.Prime.dvd_of_dvd_pow Nat.prime_three h3
  exact absurd h32 (by decide)

/-- C2, counterexample: the assembler's pool shuffle is not equivalent to the
Fisher-Yates procedure of the selector.  The assembler randomizes with
`sort(() => Math.random() - 0.5)`, whose every outcome is a function of
finitely many fair coin flips; no such coin model can reproduce the
Fisher-Yates distribution on the three-word pool (which assigns each of the
6 orderings exactly one of the 6 equally likely draw pairs). -/
theorem C2_counterexample :
    ¬ ∃ (m : Nat) (g : (Fin m → Bool) → List Str),
      ∀ L : List Str,
        ((Finset.univ : Finset (Fin m → Bool)).filter
          (fun x => g x = L)).card * 6 = 2 ^ m * fyCount3 L := by
  intro ⟨m, g, h⟩
  exact no_coin_model_matches_fy m g h

/-- C2, amended: the assembler's initial pool is `scrambledWords` plus the
distractor, but its display order is randomized by `Array.prototype.sort`
with the random comparator `() => Math.random() - 0.5`, not by the §4.2
Fisher-Yates shuffle; the two are not equivalent: Fisher-Yates on the
three-word pool is exactly uniform — the six draw pairs produce exactly the
six orderings — while no comparator-coin procedure induces that
distribution. -/
theorem C2_assembler_shuffle :
    (∀ q : Question,
      assemblerPoolContents q = q.scrambledWords ++ [q.distractor]) ∧
    (drawPairs.map (fun d => fisherYates (fyDrawsOf d) pool3)).Perm
      orderings3 ∧
    ∀ (m : Nat) (g : (Fin m → Bool) → List Str),
      ¬ ∀ L : List Str,
        ((Finset.univ : Finset (Fin m → Bool)).filter
          (fun x => g x = L)).card * 6 = 2 ^ m * fyCount3 L :=
  ⟨fun _ => rfl, by decide, no_coin_model_matches_fy⟩
